import Mathlib

/-!
Shallow embedding of `pomoxis/common/util.py`: the region-string parser
(`_region_decoder_` / `parse_regions`) and the longest-read selection logic
inlined in `extract_long_reads` (percentage mode and base-budget mode),
together with proofs of the specification's claims about them.

Strings are modelled as `List Char`, Python integers as `Nat`/`Int` with
explicit truncated division where Python truncates.
-/

set_option maxHeartbeats 1000000
set_option maxRecDepth 40000

namespace Pomoxis

/-- ASCII model of the Python regex class `\w` (the inputs of interest are
ASCII; Python's Unicode word characters beyond ASCII are not modelled). -/
def isWordChar (c : Char) : Bool := c.isAlphanum || c == '_'

/-- Numeric value of a decimal digit character. -/
def charToDigit (c : Char) : Nat := c.toNat - 48

/-- Python `int(...)` applied to a non-empty string of decimal digits. -/
def digitsToNat (cs : List Char) : Nat := cs.foldl (fun a c => 10 * a + charToDigit c) 0

/-- Decimal digit character for a value below ten. -/
def digitChar (d : Nat) : Char := Char.ofNat (48 + d)

/-- Standard decimal rendering of a natural number (used only to state the
spec's round-trip serialization property). -/
def natToDigits (n : Nat) : List Char :=
  if _h : n < 10 then [digitChar n]
  else natToDigits (n / 10) ++ [digitChar (n % 10)]
termination_by n
decreasing_by exact Nat.div_lt_self (by omega) (by omega)

/-- Groups captured by the regex
`(?P<ref_name>\w+):*(?P<start>(\d+-)*)(?P<end>\d*)` from
`src/pomoxis/common/util.py` line 13. -/
structure RegexGroups where
  ref_name : List Char
  start_g : List Char
  end_g : List Char
  deriving DecidableEq

/-- Fuelled matcher for the regex sub-pattern `(\d+-)*`: greedily consumes
maximal runs of digits that are immediately followed by a dash, returning the
consumed text and the remainder.  The fuel is only a termination device; it is
never exhausted when it starts at the length of the input. -/
def sgF : Nat → List Char → List Char × List Char
  | 0, cs => ([], cs)
  | fuel+1, cs =>
    let ds := cs.takeWhile Char.isDigit
    let rest := cs.dropWhile Char.isDigit
    if ds.isEmpty then ([], cs)
    else if rest.head? == some '-' then
      let p := sgF fuel rest.tail
      (ds ++ '-' :: p.1, p.2)
    else ([], cs)

/-- Matcher for the regex sub-pattern `(\d+-)*` (the `start` group). -/
def startGroups (cs : List Char) : List Char × List Char := sgF cs.length cs

/-- Python `_region_decoder_.match(region)`: anchored prefix match of
`(?P<ref_name>\w+):*(?P<start>(\d+-)*)(?P<end>\d*)`.  Each piece is matched
greedily; since everything after `\w+` can match the empty string, the greedy
choice is the one the backtracking engine commits to, so this deterministic
scan is exact.  `none` models a failed match (and the consequent
`AttributeError` on `.groupdict()`). -/
def regionMatch (s : List Char) : Option RegexGroups :=
  let ref := s.takeWhile isWordChar
  if ref.isEmpty then none
  else
    let rest2 := (s.dropWhile isWordChar).dropWhile (fun c => c == ':')
    let p := startGroups rest2
    some ⟨ref, p.1, (p.2).takeWhile Char.isDigit⟩

/-- Parsed region record, `Region = namedtuple('Region', 'ref_name start end')`
with `start` always materialized (default 0) and `end` optional. -/
structure Region where
  ref_name : List Char
  start : Nat
  «end» : Option Nat
  deriving DecidableEq

/-- Errors raised by `parse_regions`: a failed regex match
(`AttributeError` on `None.groupdict()`), or a missing reference-length
lookup (`KeyError`). -/
inductive RegionErr where
  | noMatch (s : List Char)
  | missingRef (name : List Char)
  deriving DecidableEq

/-- Python `d['start'].replace('-', '')` followed by the
`None if '' else int(...)` / `0 if None` dance of `parse_regions`. -/
def decodeStart (g : RegexGroups) : Nat :=
  let sd := g.start_g.filter (fun c => !(c == '-'))
  if sd.isEmpty then 0 else digitsToNat sd

/-- Body of the `parse_regions` loop for a single region string, with the
reference-length dict modelled as a partial map. -/
def parseRegion (refLengths : Option (List Char → Option Nat)) (s : List Char) :
    Except RegionErr Region :=
  match regionMatch s with
  | none => .error (.noMatch s)
  | some g =>
    let endO : Option Nat := if g.end_g.isEmpty then none else some (digitsToNat g.end_g)
    match endO, refLengths with
    | none, some L =>
      match L g.ref_name with
      | some len => .ok ⟨g.ref_name, decodeStart g, some len⟩
      | none => .error (.missingRef g.ref_name)
    | _, _ => .ok ⟨g.ref_name, decodeStart g, endO⟩

/-- Python `parse_regions(regions, ref_lengths=None)`: decodes each string in
order; the first exception aborts the whole batch. -/
def parse_regions (refLengths : Option (List Char → Option Nat)) :
    List (List Char) → Except RegionErr (List Region)
  | [] => .ok []
  | s :: ss =>
    match parseRegion refLengths s with
    | .error e => .error e
    | .ok r =>
      match parse_regions refLengths ss with
      | .error e => .error e
      | .ok rs => .ok (r :: rs)

/-- Modelled from the spec: membership in the region-string grammar
`<ref_name>[:<start>][-<end>]`, i.e. one of the four forms `ref`, `ref:N`,
`ref:N-` and `ref:N-M` with `ref` a non-empty run of word characters and
`N`, `M` non-empty runs of digits.  This grammar exists only in the spec (the
code has the regex), so it is defined from the spec's words and used as the
yardstick the parser is compared against. -/
def specGrammarValid (cs : List Char) : Bool :=
  let ref := cs.takeWhile isWordChar
  let rest := cs.dropWhile isWordChar
  !ref.isEmpty &&
    (rest.isEmpty ||
      (rest.head? == some ':' &&
        (let t := rest.tail
         let ds := t.takeWhile Char.isDigit
         let r2 := t.dropWhile Char.isDigit
         !ds.isEmpty &&
           (r2.isEmpty ||
             (r2.head? == some '-' &&
               (r2.tail.isEmpty || r2.tail.all Char.isDigit))))))

/-- Modelled from the spec: re-serialization of a `Region` to the grammar form
`ref[:start-end]`, omitting the absent `end` (the `start` field is never
absent in a parsed `Region`, so it is always printed). -/
def serializeRegion (r : Region) : List Char :=
  r.ref_name ++ ':' :: natToDigits r.start ++ '-' ::
    (match r.«end» with
     | some e => natToDigits e
     | none => [])

/-- Text of a run of `<digits>-` groups: each group rendered with its
trailing dash, concatenated. -/
def renderGroups (gs : List (List Char)) : List Char :=
  (gs.map (fun g => g ++ ['-'])).flatten

/-! ### Read selection (`extract_long_reads`) -/

/-- Comparison of read indices by their lengths, `lengths[i] <= lengths[j]`. -/
def lenLE (lengths : List Nat) (i j : Nat) : Prop :=
  lengths.getD i 0 ≤ lengths.getD j 0

instance (lengths : List Nat) : DecidableRel (lenLE lengths) :=
  fun _ _ => Nat.decLe _ _

/-- Model of `np.argsort(lengths)`: the indices `0 .. n-1` sorted by
ascending length.  NumPy's (unstable) quicksort is modelled by a concrete
sort; no claim depends on the order among equal lengths. -/
def argsortAsc (lengths : List Nat) : List Nat :=
  List.insertionSort (lenLE lengths) (List.range lengths.length)

/-- The loop of `extract_long_reads` in `--bases` mode:
`for i, j in enumerate(np.argsort(lengths), 1): cumsum += lengths[j];
if cumsum > bases: break; last = i`.  Iterates over the ascending-order
index list, starting from `i = 1`, `cumsum = 0`, `last = 1`. -/
def lastFitAux (bases : Nat) (lengths : List Nat) :
    List Nat → Nat → Nat → Nat → Nat
  | [], _, _, last => last
  | j :: js, i, cumsum, last =>
    if cumsum + lengths.getD j 0 > bases then last
    else lastFitAux bases lengths js (i + 1) (cumsum + lengths.getD j 0) i

/-- `--bases` branch of `extract_long_reads`:
`order = np.argsort(lengths)[::-1]; ...; longest = order[:last]`. -/
def budgetSelect (lengths : List Nat) (bases : Nat) : List Nat :=
  let order := (argsortAsc lengths).reverse
  order.take (lastFitAux bases lengths (argsortAsc lengths) 1 0 1)

/-- Python slice `xs[i:]` for a possibly negative `i`. -/
def pySliceFrom (i : Int) (xs : List α) : List α :=
  if 0 ≤ i then xs.drop i.toNat
  else xs.drop ((xs.length : Int) + i).toNat

/-- `--longest` branch of `extract_long_reads`:
`max_reads = int(len(ids) * (args.longest / 100));
longest = np.argpartition(lengths, -max_reads)[-max_reads:]`.
In this variant Python's double-precision product-and-truncate is simplified
to exact truncated division (`Int.tdiv`); the two computations can differ by
one in rare cases (see `floatMaxReads` and `percentSelectF` below for the
rounding-faithful count), so this variant serves only the claims that are
insensitive to that difference: failure/success at `n = 0` (where both counts
are 0), the success-iff-bounds characterisation (no divergence crosses the
bound window), the `max_reads = 0` degeneracy (where the float product is
below 1 and also truncates to 0), and the count-independent partition
invariant.  `np.argpartition` raises `ValueError` unless `-n <= kth < n`, and
its unspecified partition permutation is modelled by the fully sorted
ascending permutation, which satisfies its contract. -/
def percentSelect (lengths : List Nat) (pct : Int) : Except String (List Nat) :=
  let n := lengths.length
  let max_reads : Int := Int.tdiv ((n : Int) * pct) 100
  let kth : Int := -max_reads
  if -(n : Int) ≤ kth ∧ kth < (n : Int) then
    .ok (pySliceFrom (-max_reads) (argsortAsc lengths))
  else .error "kth out of bounds"

/-! ### Exact model of the double-precision count

`int(len(ids) * (args.longest / 100))` is evaluated by Python in IEEE-754
binary64: `args.longest / 100` is the correctly rounded (nearest, ties to
even) double of the exact quotient, `len(ids)` is converted to the nearest
double, their product is again correctly rounded, and `int` truncates toward
zero.  The model below reproduces this bit-exactly using integer arithmetic
on mantissa-exponent pairs `(m, e)` representing the positive dyadic value
`m * 2^e`.  The exponent range is unbounded (no overflow, infinity or
subnormal clamping), which is faithful for every input of representable
magnitude; rounding is symmetric under negation, so signs are handled
outside the positive-value core. -/

/-- Fuelled floor-log2 (`log2F n n` is `Nat.log2 n`); written with structural
recursion so that it reduces inside the kernel. -/
def log2F : Nat → Nat → Nat
  | 0, _ => 0
  | fuel+1, n => if n ≤ 1 then 0 else log2F fuel (n / 2) + 1

/-- Decides `2^e ≤ a / b` for positive naturals `a`, `b` and an integer
exponent `e`. -/
def pow2le (b a : Nat) (e : Int) : Bool :=
  if 0 ≤ e then b * 2 ^ e.toNat ≤ a else b ≤ a * 2 ^ (-e).toNat

/-- The unique `e` with `2^e ≤ a / b < 2^(e+1)` for positive `a`, `b`:
`log2F a a - log2F b b` is within one of it, corrected by a direct
comparison. -/
def ratExponent (a b : Nat) : Int :=
  let e0 : Int := (log2F a a : Int) - (log2F b b : Int)
  if pow2le b a e0 then e0 else e0 - 1

/-- Rounds `num / den` to the nearest integer, ties to even. -/
def roundMantissa (num den : Nat) : Nat :=
  let m0 := num / den
  let r2 := 2 * (num % den)
  if r2 < den then m0
  else if den < r2 then m0 + 1
  else if m0 % 2 = 0 then m0 else m0 + 1

/-- Correctly rounded (nearest, ties to even) binary64 value of the
non-negative rational `a / b`, as a mantissa-exponent pair `(m, e)` of value
`m * 2^e` with `2^52 ≤ m ≤ 2^53` (or `(0, 0)` for zero): the real line around
`a/b` is scaled so that one unit is one ulp, and the scaled value is rounded
to the nearest integer, ties to the even mantissa. -/
def roundPosRat (a b : Nat) : Nat × Int :=
  if a = 0 then (0, 0)
  else
    let e := ratExponent a b
    let s : Int := 52 - e
    if 0 ≤ s then (roundMantissa (a * 2 ^ s.toNat) b, -s)
    else (roundMantissa a (b * 2 ^ (-s).toNat), -s)

/-- Correctly rounded binary64 value of the non-negative dyadic `M * 2^E`
(the exact product of two doubles): IEEE multiplication. -/
def roundPosDyadic (M : Nat) (E : Int) : Nat × Int :=
  if 0 ≤ E then roundPosRat (M * 2 ^ E.toNat) 1 else roundPosRat M (2 ^ (-E).toNat)

/-- `int(n * (pct / 100))` for a non-negative `pct`, computed as CPython does:
`d = fl(pct / 100)` (correctly rounded true division), `fn = fl(n)` (int-to-
float conversion), `p = fl(fn * d)` (float multiplication), then truncation
toward zero (floor, as the value is non-negative). -/
def floatMaxReadsMag (n pct : Nat) : Nat :=
  let d := roundPosRat pct 100
  let fn := roundPosRat n 1
  let p := roundPosDyadic (fn.1 * d.1) (fn.2 + d.2)
  if 0 ≤ p.2 then p.1 * 2 ^ p.2.toNat else p.1 / 2 ^ (-p.2).toNat

/-- `int(len(ids) * (args.longest / 100))` in IEEE-754 binary64, for any
integer percentage: rounding and truncation are symmetric under negation, so
a negative percentage is handled through the positive core. -/
def floatMaxReads (n : Nat) (pct : Int) : Int :=
  if 0 ≤ pct then (floatMaxReadsMag n pct.toNat : Int)
  else -((floatMaxReadsMag n (-pct).toNat : Int))

/-- `--longest` branch of `extract_long_reads` with `max_reads` computed
exactly as Python computes it, in double precision (`floatMaxReads`);
otherwise identical to `percentSelect`. -/
def percentSelectF (lengths : List Nat) (pct : Int) : Except String (List Nat) :=
  let n := lengths.length
  let max_reads : Int := floatMaxReads n pct
  let kth : Int := -max_reads
  if -(n : Int) ≤ kth ∧ kth < (n : Int) then
    .ok (pySliceFrom (-max_reads) (argsortAsc lengths))
  else .error "kth out of bounds"

/-- The two mutually exclusive selection modes of `extract_long_reads`. -/
inductive SelectMode where
  | longest (pct : Int)
  | bases (b : Nat)

/-- Index selection of `extract_long_reads` in either mode. -/
def selectIdx (lengths : List Nat) : SelectMode → Except String (List Nat)
  | .longest pct => percentSelect lengths pct
  | .bases b => .ok (budgetSelect lengths b)

/-- The `--others` output:
`(record_dict[ids[i]] for i in range(len(ids)) if i not in longest)`. -/
def othersIdx (n : Nat) (sel : List Nat) : List Nat :=
  (List.range n).filter (fun i => !(sel.contains i))

/-! ### Generic scanning lemmas -/

theorem dropWhile_eq_self_of_head (p : Char → Bool) (ys : List Char)
    (hy : ∀ c, ys.head? = some c → p c = false) : ys.dropWhile p = ys := by
  cases ys with
  | nil => rfl
  | cons y ys' =>
    exact List.dropWhile_cons_of_neg (by simp [hy y rfl])

theorem takeWhile_all_append (p : Char → Bool) (xs ys : List Char)
    (hx : ∀ c ∈ xs, p c = true) (hy : ∀ c, ys.head? = some c → p c = false) :
    (xs ++ ys).takeWhile p = xs := by
  rw [List.takeWhile_append_of_pos hx]
  cases ys with
  | nil => simp
  | cons y ys' =>
    rw [List.takeWhile_cons_of_neg (by simp [hy y rfl]), List.append_nil]

theorem dropWhile_all_append (p : Char → Bool) (xs ys : List Char)
    (hx : ∀ c ∈ xs, p c = true) (hy : ∀ c, ys.head? = some c → p c = false) :
    (xs ++ ys).dropWhile p = ys := by
  rw [List.dropWhile_append_of_pos hx]
  exact dropWhile_eq_self_of_head p ys hy

/-! ### Digit characters and numerals -/

theorem isWordChar_of_isDigit {c : Char} (h : c.isDigit = true) :
    isWordChar c = true := by
  simp [isWordChar, Char.isAlphanum, h]

theorem digitChar_isDigit {d : Nat} (h : d < 10) : (digitChar d).isDigit = true := by
  interval_cases d <;> decide

theorem charToDigit_digitChar {d : Nat} (h : d < 10) : charToDigit (digitChar d) = d := by
  interval_cases d <;> decide

theorem natToDigits_ne_nil (n : Nat) : natToDigits n ≠ [] := by
  rw [natToDigits]
  split <;> simp

theorem natToDigits_all_digit (n : Nat) : ∀ c ∈ natToDigits n, c.isDigit = true := by
  induction n using Nat.strong_induction_on with
  | _ n ih =>
    rw [natToDigits]
    split
    · rename_i h
      intro c hc
      simp only [List.mem_singleton] at hc
      subst hc
      exact digitChar_isDigit h
    · rename_i h
      intro c hc
      rw [List.mem_append] at hc
      cases hc with
      | inl hm => exact ih (n / 10) (Nat.div_lt_self (by omega) (by omega)) c hm
      | inr hm =>
        simp only [List.mem_singleton] at hm
        subst hm
        exact digitChar_isDigit (Nat.mod_lt _ (by omega))

theorem digitsToNat_append (xs : List Char) (c : Char) :
    digitsToNat (xs ++ [c]) = 10 * digitsToNat xs + charToDigit c := by
  simp [digitsToNat, List.foldl_append]

theorem digitsToNat_natToDigits (n : Nat) : digitsToNat (natToDigits n) = n := by
  induction n using Nat.strong_induction_on with
  | _ n ih =>
    rw [natToDigits]
    split
    · rename_i h
      simp [digitsToNat, charToDigit_digitChar h]
    · rename_i h
      rw [digitsToNat_append, ih (n / 10) (Nat.div_lt_self (by omega) (by omega)),
        charToDigit_digitChar (Nat.mod_lt _ (by omega))]
      omega

theorem filter_out_dash (s : List Char) (hs : ∀ c ∈ s, c.isDigit = true) :
    s.filter (fun c => !(c == '-')) = s := by
  apply List.filter_eq_self.mpr
  intro c hc
  have hd := hs c hc
  simp only [Bool.not_eq_eq_eq_not, Bool.not_true, beq_eq_false_iff_ne, ne_eq]
  intro hcontra
  subst hcontra
  exact absurd hd (by decide)

theorem filter_renderGroups (gs : List (List Char))
    (h : ∀ g ∈ gs, ∀ c ∈ g, c.isDigit = true) :
    (renderGroups gs).filter (fun c => !(c == '-')) = gs.flatten := by
  induction gs with
  | nil => rfl
  | cons g gs ih =>
    have hg : ∀ c ∈ g, c.isDigit = true := h g (by simp)
    have hrec := ih (fun g' hg' => h g' (by simp [hg']))
    simp only [renderGroups, List.map_cons, List.flatten_cons, List.filter_append] at hrec ⊢
    rw [filter_out_dash g hg, hrec]
    simp

/-! ### Behaviour of the `(\d+-)*` matcher -/

theorem length_takeWhile_add_dropWhile (p : Char → Bool) (cs : List Char) :
    (cs.takeWhile p).length + (cs.dropWhile p).length = cs.length := by
  conv_rhs => rw [← List.takeWhile_append_dropWhile p cs]
  rw [List.length_append]

theorem sgF_fuel_eq (f1 f2 : Nat) (cs : List Char) (h1 : cs.length ≤ f1)
    (h2 : cs.length ≤ f2) : sgF f1 cs = sgF f2 cs := by
  induction f1 using Nat.strong_induction_on generalizing f2 cs with
  | _ f1 ih =>
    match f1, f2 with
    | 0, 0 => rfl
    | 0, b+1 =>
      have hnil : cs = [] := List.length_eq_zero.mp (by omega)
      subst hnil
      simp [sgF]
    | a+1, 0 =>
      have hnil : cs = [] := List.length_eq_zero.mp (by omega)
      subst hnil
      simp [sgF]
    | a+1, b+1 =>
      simp only [sgF]
      by_cases hds : (cs.takeWhile Char.isDigit).isEmpty
      · simp [hds]
      · by_cases hdash : ((cs.dropWhile Char.isDigit).head? == some '-') = true
        · have hlen := length_takeWhile_add_dropWhile Char.isDigit cs
          have hds1 : 1 ≤ (cs.takeWhile Char.isDigit).length := by
            cases hx : cs.takeWhile Char.isDigit with
            | nil => rw [hx] at hds; simp at hds
            | cons _ _ => simp [hx]
          have hrest1 : 1 ≤ (cs.dropWhile Char.isDigit).length := by
            cases hx : cs.dropWhile Char.isDigit with
            | nil => rw [hx] at hdash; simp at hdash
            | cons _ _ => simp [hx]
          have htail : (cs.dropWhile Char.isDigit).tail.length ≤ a := by
            rw [List.length_tail]; omega
          have htail2 : (cs.dropWhile Char.isDigit).tail.length ≤ b := by
            rw [List.length_tail]; omega
          simp only [hds, hdash, if_true, if_false, Bool.false_eq_true]
          rw [ih a (by omega) b _ htail htail2]
        · simp [hds, hdash]

theorem sgF_eq_startGroups (fuel : Nat) (cs : List Char) (h : cs.length ≤ fuel) :
    sgF fuel cs = startGroups cs :=
  sgF_fuel_eq fuel cs.length cs h (Nat.le_refl _)

theorem sgF_succ_group (fuel : Nat) (s rest : List Char) (hne : s ≠ [])
    (hdig : ∀ c ∈ s, c.isDigit = true) (hfuel : rest.length ≤ fuel) :
    sgF (fuel + 1) (s ++ '-' :: rest) =
      (s ++ '-' :: (startGroups rest).1, (startGroups rest).2) := by
  have hdashNotDigit : ∀ c, ('-' :: rest).head? = some c → Char.isDigit c = false := by
    intro c hc
    simp only [List.head?_cons, Option.some.injEq] at hc
    subst hc
    decide
  have hT : (s ++ '-' :: rest).takeWhile Char.isDigit = s :=
    takeWhile_all_append _ _ _ hdig hdashNotDigit
  have hD : (s ++ '-' :: rest).dropWhile Char.isDigit = '-' :: rest :=
    dropWhile_all_append _ _ _ hdig hdashNotDigit
  obtain ⟨d, s', rfl⟩ : ∃ d s', s = d :: s' := by
    cases s with
    | nil => exact absurd rfl hne
    | cons d s' => exact ⟨d, s', rfl⟩
  simp only [sgF]
  rw [hT, hD]
  simp only [List.isEmpty_cons, Bool.false_eq_true, if_false, List.head?_cons,
    beq_self_eq_true, if_true, List.tail_cons]
  rw [sgF_eq_startGroups fuel rest hfuel]

theorem startGroups_group (s rest : List Char) (hne : s ≠ [])
    (hdig : ∀ c ∈ s, c.isDigit = true) :
    startGroups (s ++ '-' :: rest) =
      (s ++ '-' :: (startGroups rest).1, (startGroups rest).2) := by
  unfold startGroups
  have hlen : (s ++ '-' :: rest).length = (s.length + rest.length) + 1 := by
    simp [List.length_append]
    omega
  rw [hlen]
  exact sgF_succ_group (s.length + rest.length) s rest hne hdig (by omega)

theorem startGroups_all_digits (e : List Char) (he : ∀ c ∈ e, c.isDigit = true) :
    startGroups e = ([], e) := by
  have hD : e.dropWhile Char.isDigit = [] :=
    List.dropWhile_eq_nil_iff.mpr (fun c hc => he c hc)
  unfold startGroups
  cases hf : e.length with
  | zero =>
    have hnil : e = [] := List.length_eq_zero.mp hf
    subst hnil
    rfl
  | succ k =>
    simp only [sgF]
    rw [hD]
    simp

theorem startGroups_not_digit (cs : List Char)
    (h : ∀ c, cs.head? = some c → c.isDigit = false) :
    startGroups cs = ([], cs) := by
  have hT : cs.takeWhile Char.isDigit = [] := by
    cases cs with
    | nil => rfl
    | cons c cs' => exact List.takeWhile_cons_of_neg (by simp [h c rfl])
  unfold startGroups
  cases hf : cs.length with
  | zero =>
    have hnil : cs = [] := List.length_eq_zero.mp hf
    subst hnil
    rfl
  | succ k =>
    simp only [sgF]
    rw [hT]
    simp

theorem startGroups_render (gs : List (List Char)) (e : List Char)
    (hg : ∀ g ∈ gs, g ≠ [] ∧ ∀ c ∈ g, c.isDigit = true)
    (he : ∀ c ∈ e, c.isDigit = true) :
    startGroups (renderGroups gs ++ e) = (renderGroups gs, e) := by
  induction gs with
  | nil => simpa [renderGroups] using startGroups_all_digits e he
  | cons g gs ih =>
    have hgne := (hg g (by simp)).1
    have hgd := (hg g (by simp)).2
    have hsplit : renderGroups (g :: gs) ++ e = g ++ '-' :: (renderGroups gs ++ e) := by
      simp [renderGroups, List.append_assoc]
    rw [hsplit, startGroups_group g _ hgne hgd, ih (fun g' h' => hg g' (by simp [h']))]
    simp [renderGroups]

/-! ### Behaviour of the full regex match and of `parse_regions` -/

theorem regionMatch_shape (ref t : List Char) (hne : ref ≠ [])
    (hword : ∀ c ∈ ref, isWordChar c = true)
    (ht : ∀ c, t.head? = some c → isWordChar c = false) :
    regionMatch (ref ++ t) =
      some ⟨ref, (startGroups (t.dropWhile (fun c => c == ':'))).1,
        (startGroups (t.dropWhile (fun c => c == ':'))).2.takeWhile Char.isDigit⟩ := by
  simp only [regionMatch]
  rw [takeWhile_all_append _ _ _ hword ht, dropWhile_all_append _ _ _ hword ht]
  obtain ⟨r, rs, rfl⟩ : ∃ r rs, ref = r :: rs := by
    cases ref with
    | nil => exact absurd rfl hne
    | cons r rs => exact ⟨r, rs, rfl⟩
  rfl

theorem takeWhile_eq_self_of_all (p : Char → Bool) (e : List Char)
    (he : ∀ c ∈ e, p c = true) : e.takeWhile p = e := by
  have h := takeWhile_all_append p e [] he (by intro c hc; simp at hc)
  simpa using h

theorem dropColon_cons (w : List Char)
    (hw : ∀ c, w.head? = some c → c.isDigit = true) :
    (':' :: w).dropWhile (fun c => c == ':') = w := by
  rw [List.dropWhile_cons_of_pos (by simp)]
  apply dropWhile_eq_self_of_head
  intro c hc
  have hd := hw c hc
  simp only [beq_eq_false_iff_ne, ne_eq]
  intro hcontra
  subst hcontra
  exact absurd hd (by decide)

theorem if_isEmpty_digitsToNat (sd : List Char) :
    (if sd.isEmpty then 0 else digitsToNat sd) = digitsToNat sd := by
  cases sd <;> simp [digitsToNat]

theorem decodeStart_val (g : RegexGroups) :
    decodeStart g = digitsToNat (g.start_g.filter (fun c => !(c == '-'))) := by
  simp only [decodeStart]
  exact if_isEmpty_digitsToNat _

theorem parseRegion_refOnly (ref : List Char) (href : ref ≠ [])
    (hword : ∀ c ∈ ref, isWordChar c = true) :
    parseRegion none ref = .ok ⟨ref, 0, none⟩ := by
  have hm := regionMatch_shape ref [] href hword (by intro c hc; simp at hc)
  simp only [List.append_nil, List.dropWhile_nil] at hm
  have hsg : startGroups ([] : List Char) = ([], []) := rfl
  rw [hsg] at hm
  simp only [parseRegion, hm]
  simp [decodeStart, digitsToNat]

theorem parseRegion_colon (ref : List Char) (gs : List (List Char)) (e : List Char)
    (href : ref ≠ []) (hword : ∀ c ∈ ref, isWordChar c = true)
    (hg : ∀ g ∈ gs, g ≠ [] ∧ ∀ c ∈ g, c.isDigit = true)
    (he : ∀ c ∈ e, c.isDigit = true) :
    parseRegion none (ref ++ ':' :: (renderGroups gs ++ e)) =
      .ok ⟨ref, digitsToNat gs.flatten,
        if e.isEmpty then none else some (digitsToNat e)⟩ := by
  have hwHead : ∀ c, (renderGroups gs ++ e).head? = some c → c.isDigit = true := by
    intro c hc
    cases gs with
    | nil =>
      simp only [renderGroups, List.map_nil, List.flatten_nil, List.nil_append] at hc
      cases e with
      | nil => simp at hc
      | cons x xs =>
        simp only [List.head?_cons, Option.some.injEq] at hc
        subst hc
        exact he x (by simp)
    | cons g gs' =>
      obtain ⟨d, g', rfl⟩ : ∃ d g', g = d :: g' := by
        cases hgg : g with
        | nil => exact absurd hgg (hg g (by simp)).1
        | cons d g' => exact ⟨d, g', rfl⟩
      simp only [renderGroups, List.map_cons, List.flatten_cons, List.cons_append,
        List.head?_cons, Option.some.injEq] at hc
      subst hc
      exact (hg (d :: g') (by simp)).2 d (by simp)
  have hm := regionMatch_shape ref (':' :: (renderGroups gs ++ e)) href hword
    (by
      intro c hc
      simp only [List.head?_cons, Option.some.injEq] at hc
      subst hc
      decide)
  rw [dropColon_cons _ hwHead, startGroups_render gs e hg he] at hm
  simp only at hm
  rw [takeWhile_eq_self_of_all Char.isDigit e he] at hm
  cases e with
  | nil =>
    simp only [parseRegion, hm]
    rw [decodeStart_val, filter_renderGroups gs (fun g hgm => (hg g hgm).2)]
    simp
  | cons x xs =>
    simp only [parseRegion, hm]
    rw [decodeStart_val, filter_renderGroups gs (fun g hgm => (hg g hgm).2)]
    simp

theorem parse_serializeRegion (ref : List Char) (n : Nat) (eo : Option Nat)
    (href : ref ≠ []) (hword : ∀ c ∈ ref, isWordChar c = true) :
    parseRegion none (serializeRegion ⟨ref, n, eo⟩) = .ok ⟨ref, n, eo⟩ := by
  have hgs : ∀ g ∈ [natToDigits n], g ≠ [] ∧ ∀ c ∈ g, c.isDigit = true := by
    intro g hgm
    simp only [List.mem_singleton] at hgm
    subst hgm
    exact ⟨natToDigits_ne_nil n, natToDigits_all_digit n⟩
  cases eo with
  | none =>
    have hshape : serializeRegion ⟨ref, n, none⟩ =
        ref ++ ':' :: (renderGroups [natToDigits n] ++ []) := by
      simp [serializeRegion, renderGroups]
    rw [hshape, parseRegion_colon ref [natToDigits n] [] href hword hgs
      (by intro c hc; simp at hc)]
    simp [digitsToNat_natToDigits]
  | some e =>
    have hshape : serializeRegion ⟨ref, n, some e⟩ =
        ref ++ ':' :: (renderGroups [natToDigits n] ++ natToDigits e) := by
      simp [serializeRegion, renderGroups, List.append_assoc]
    rw [hshape, parseRegion_colon ref [natToDigits n] (natToDigits e) href hword hgs
      (natToDigits_all_digit e)]
    have hEmp : (natToDigits e).isEmpty = false := by
      cases hx : natToDigits e with
      | nil => exact absurd hx (natToDigits_ne_nil e)
      | cons _ _ => rfl
    rw [hEmp]
    simp [digitsToNat_natToDigits]

theorem parse_regions_singleton (rl : Option (List Char → Option Nat)) (s : List Char) :
    parse_regions rl [s] =
      match parseRegion rl s with
      | .ok r => .ok [r]
      | .error e => .error e := by
  cases h : parseRegion rl s <;> simp [parse_regions, h]

theorem regionMatch_none_iff (s : List Char) :
    regionMatch s = none ↔ s.takeWhile isWordChar = [] := by
  simp only [regionMatch]
  cases hx : s.takeWhile isWordChar with
  | nil => simp
  | cons c cs => simp

theorem parseRegion_ok_of_match (s : List Char) (g : RegexGroups)
    (hm : regionMatch s = some g) : ∃ r, parseRegion none s = .ok r := by
  simp only [parseRegion, hm]
  by_cases hE : g.end_g.isEmpty = true <;> simp [hE]

theorem specGrammarValid_cases (cs : List Char) (h : specGrammarValid cs = true) :
    ∃ ref, ref ≠ [] ∧ (∀ c ∈ ref, isWordChar c = true) ∧
      (cs = ref ∨
       ∃ ds, ds ≠ [] ∧ (∀ c ∈ ds, c.isDigit = true) ∧
         (cs = ref ++ ':' :: ds ∨ cs = ref ++ ':' :: (ds ++ ['-']) ∨
          ∃ u, u ≠ [] ∧ (∀ c ∈ u, c.isDigit = true) ∧
            cs = ref ++ ':' :: (ds ++ '-' :: u))) := by
  obtain ⟨ref, hrefEq⟩ : ∃ r, cs.takeWhile isWordChar = r := ⟨_, rfl⟩
  obtain ⟨rest, hrestEq⟩ : ∃ r, cs.dropWhile isWordChar = r := ⟨_, rfl⟩
  have hsplit : ref ++ rest = cs := by
    rw [← hrefEq, ← hrestEq]
    exact List.takeWhile_append_dropWhile _ _
  have hword : ∀ c ∈ ref, isWordChar c = true := by
    rw [← hrefEq]
    exact fun c hc => List.mem_takeWhile_imp hc
  simp only [specGrammarValid, hrefEq, hrestEq, Bool.and_eq_true, Bool.or_eq_true,
    beq_iff_eq, List.isEmpty_eq_true, Bool.not_eq_true', List.isEmpty_eq_false,
    List.all_eq_true] at h
  obtain ⟨hrefne, hrest⟩ := h
  refine ⟨ref, hrefne, hword, ?_⟩
  rcases hrest with hrest0 | ⟨hcolon, hrest2⟩
  · left
    rw [← hsplit, hrest0, List.append_nil]
  · obtain ⟨t, rfl⟩ : ∃ t, rest = ':' :: t := by
      cases rest with
      | nil => simp at hcolon
      | cons r0 t =>
        simp only [List.head?_cons, Option.some.injEq] at hcolon
        subst hcolon
        exact ⟨t, rfl⟩
    simp only [List.tail_cons] at hrest2
    obtain ⟨ds, hdsEq⟩ : ∃ d, t.takeWhile Char.isDigit = d := ⟨_, rfl⟩
    obtain ⟨r2, hr2Eq⟩ : ∃ r, t.dropWhile Char.isDigit = r := ⟨_, rfl⟩
    have htsplit : ds ++ r2 = t := by
      rw [← hdsEq, ← hr2Eq]
      exact List.takeWhile_append_dropWhile _ _
    have hdsd : ∀ c ∈ ds, c.isDigit = true := by
      rw [← hdsEq]
      exact fun c hc => List.mem_takeWhile_imp hc
    rw [hdsEq, hr2Eq] at hrest2
    obtain ⟨hdsne, hr2cases⟩ := hrest2
    right
    refine ⟨ds, hdsne, hdsd, ?_⟩
    rcases hr2cases with hr20 | ⟨hdash, htail⟩
    · left
      rw [hr20, List.append_nil] at htsplit
      rw [← hsplit, htsplit]
    · obtain ⟨u, rfl⟩ : ∃ u, r2 = '-' :: u := by
        cases r2 with
        | nil => simp at hdash
        | cons r0 u =>
          simp only [List.head?_cons, Option.some.injEq] at hdash
          subst hdash
          exact ⟨u, rfl⟩
      simp only [List.tail_cons] at htail
      cases u with
      | nil =>
        right; left
        rw [← hsplit, ← htsplit]
      | cons u0 us =>
        rcases htail with hu0 | hud
        · exact absurd hu0 (by simp)
        · right; right
          exact ⟨u0 :: us, by simp, hud, by rw [← hsplit, ← htsplit]⟩

/-- C3 counterexample: the string `Ecoli:abc` does not belong to the spec's
region grammar, yet `parse_regions` does not fail on it: the regex matches
the prefix `Ecoli` (with empty `start` and `end` groups) and the trailing
`:abc` is silently ignored, producing `Region(Ecoli, 0, None)`. -/
theorem c3_counterexample :
    specGrammarValid (String.toList "Ecoli:abc") = false ∧
    parse_regions none [String.toList "Ecoli:abc"] =
      .ok [⟨String.toList "Ecoli", 0, none⟩] := ⟨rfl, rfl⟩

/-- C3 (amended): `parse_regions` fails exactly on the strings that do not
begin with a word character (then `_region_decoder_.match` returns `None` and
`.groupdict()` raises); every string beginning with a word character — however
malformed the remainder — yields a `Region` rather than an error. -/
theorem c3_match_failure_amended (s : List Char) :
    (∃ e, parse_regions none [s] = .error e) ↔
      ∀ c, s.head? = some c → isWordChar c = false := by
  rw [parse_regions_singleton]
  cases s with
  | nil =>
    constructor
    · intro _ c hc
      simp at hc
    · intro _
      exact ⟨.noMatch [], rfl⟩
  | cons c0 cs' =>
    by_cases hw : isWordChar c0 = true
    · have hm : ∃ g, regionMatch (c0 :: cs') = some g := by
        simp only [regionMatch, List.takeWhile_cons_of_pos hw, List.isEmpty_cons,
          Bool.false_eq_true, if_false]
        exact ⟨_, rfl⟩
      obtain ⟨g, hg⟩ := hm
      obtain ⟨r, hr⟩ := parseRegion_ok_of_match _ _ hg
      rw [hr]
      constructor
      · rintro ⟨e, he⟩
        simp at he
      · intro hcontra
        exact absurd (hcontra c0 rfl) (by simp [hw])
    · have hm : regionMatch (c0 :: cs') = none := by
        apply (regionMatch_none_iff _).mpr
        exact List.takeWhile_cons_of_neg hw
      have hr : parseRegion none (c0 :: cs') = .error (.noMatch (c0 :: cs')) := by
        simp [parseRegion, hm]
      rw [hr]
      constructor
      · rintro -
        intro c hc
        simp only [List.head?_cons, Option.some.injEq] at hc
        subst hc
        simpa using hw
      · intro _
        exact ⟨.noMatch (c0 :: cs'), rfl⟩

/-- C6: for every region string whose `end` group decodes as absent, a
provided `ref_lengths` map is consulted: a present entry becomes the Region's
`end`, and a missing entry is exactly the condition under which
`parse_regions` fails with the `KeyError`-modelling error. -/
theorem c6_end_default (s : List Char) (g : RegexGroups)
    (L : List Char → Option Nat) (hm : regionMatch s = some g) (hend : g.end_g = []) :
    (∀ v, L g.ref_name = some v →
      parse_regions (some L) [s] = .ok [⟨g.ref_name, decodeStart g, some v⟩]) ∧
    (L g.ref_name = none ↔
      parse_regions (some L) [s] = .error (.missingRef g.ref_name)) := by
  have hPR : parseRegion (some L) s =
      (match L g.ref_name with
       | some len => .ok ⟨g.ref_name, decodeStart g, some len⟩
       | none => .error (.missingRef g.ref_name)) := by
    simp only [parseRegion, hm, hend, List.isEmpty_nil, if_true]
  rw [parse_regions_singleton, hPR]
  constructor
  · intro v hv
    rw [hv]
  · cases hL : L g.ref_name with
    | none => simp
    | some v => simp

/-- C6 witness: `Ecoli` with `ref_lengths={'Ecoli': 4800000}` (the docstring
example) hits the theorem's present-entry branch. -/
theorem c6_end_default_witness :
    regionMatch (String.toList "Ecoli") = some ⟨String.toList "Ecoli", [], []⟩ ∧
    parse_regions (some (fun nm => if nm = String.toList "Ecoli" then some 4800000 else none))
        [String.toList "Ecoli"] =
      .ok [⟨String.toList "Ecoli", 0, some 4800000⟩] := by
  refine ⟨rfl, ?_⟩
  exact (c6_end_default (String.toList "Ecoli") ⟨String.toList "Ecoli", [], []⟩
    (fun nm => if nm = String.toList "Ecoli" then some 4800000 else none) rfl rfl).1
    4800000 (by simp)

/-- C10: a region string made of a word-character reference, a colon, several
`<digits>-` groups and a final digit run is accepted, the digit runs before
the dashes are concatenated into `start`, and the trailing digits become
`end`. -/
theorem c10_dash_groups (ref : List Char) (gs : List (List Char)) (e : List Char)
    (href : ref ≠ []) (hword : ∀ c ∈ ref, isWordChar c = true)
    (hg : ∀ g ∈ gs, g ≠ [] ∧ ∀ c ∈ g, c.isDigit = true)
    (hene : e ≠ []) (he : ∀ c ∈ e, c.isDigit = true) :
    parse_regions none [ref ++ ':' :: (renderGroups gs ++ e)] =
      .ok [⟨ref, digitsToNat gs.flatten, some (digitsToNat e)⟩] := by
  rw [parse_regions_singleton, parseRegion_colon ref gs e href hword hg he]
  obtain ⟨x, xs, rfl⟩ : ∃ x xs, e = x :: xs := by
    cases e with
    | nil => exact absurd rfl hene
    | cons x xs => exact ⟨x, xs, rfl⟩
  simp

/-- C10 witness: `Ecoli:100-200-300` parses to
`Region(ref_name='Ecoli', start=100200, end=300)`. -/
theorem c10_dash_groups_witness :
    parse_regions none [String.toList "Ecoli:100-200-300"] =
      .ok [⟨String.toList "Ecoli", 100200, some 300⟩] := by
  have h := c10_dash_groups (String.toList "Ecoli")
    [String.toList "100", String.toList "200"] (String.toList "300")
    (by decide) (by decide) (by decide) (by decide) (by decide)
  exact h

/-- C7: for every region string in the spec's grammar, parsing it,
re-serializing the resulting Region to the grammar form `ref[:start-end]`
(omitting an absent end) and re-parsing yields the same Region. -/
theorem c7_roundtrip (cs : List Char) (hvalid : specGrammarValid cs = true) :
    ∃ r : Region, parse_regions none [cs] = .ok [r] ∧
      parse_regions none [serializeRegion r] = .ok [r] := by
  obtain ⟨ref, hrefne, hword, hcase⟩ := specGrammarValid_cases cs hvalid
  rcases hcase with rfl | ⟨ds, hdsne, hdsd, hcase2⟩
  · refine ⟨⟨cs, 0, none⟩, ?_, ?_⟩
    · rw [parse_regions_singleton, parseRegion_refOnly cs hrefne hword]
    · rw [parse_regions_singleton, parse_serializeRegion cs 0 none hrefne hword]
  · obtain ⟨d0, ds', rfl⟩ : ∃ d0 ds', ds = d0 :: ds' := by
      cases ds with
      | nil => exact absurd rfl hdsne
      | cons d0 ds' => exact ⟨d0, ds', rfl⟩
    have hgs1 : ∀ g ∈ [d0 :: ds'], g ≠ [] ∧ ∀ c ∈ g, c.isDigit = true := by
      intro g hgm
      simp only [List.mem_singleton] at hgm
      subst hgm
      exact ⟨hdsne, hdsd⟩
    rcases hcase2 with rfl | rfl | ⟨u, hune, hud, rfl⟩
    · refine ⟨⟨ref, 0, some (digitsToNat (d0 :: ds'))⟩, ?_, ?_⟩
      · rw [parse_regions_singleton]
        have h := parseRegion_colon ref [] (d0 :: ds') hrefne hword (by simp) hdsd
        simp only [renderGroups, List.map_nil, List.flatten_nil, List.nil_append,
          List.isEmpty_cons, Bool.false_eq_true, if_false] at h
        rw [h]
        rfl
      · rw [parse_regions_singleton,
          parse_serializeRegion ref 0 (some (digitsToNat (d0 :: ds'))) hrefne hword]
    · refine ⟨⟨ref, digitsToNat (d0 :: ds'), none⟩, ?_, ?_⟩
      · rw [parse_regions_singleton]
        have h := parseRegion_colon ref [d0 :: ds'] [] hrefne hword hgs1
          (by intro c hc; simp at hc)
        simp only [renderGroups, List.map_cons, List.map_nil, List.flatten_cons,
          List.flatten_nil, List.append_nil, List.isEmpty_nil, if_true] at h
        rw [h]
      · rw [parse_regions_singleton,
          parse_serializeRegion ref (digitsToNat (d0 :: ds')) none hrefne hword]
    · obtain ⟨u0, us, rfl⟩ : ∃ u0 us, u = u0 :: us := by
        cases u with
        | nil => exact absurd rfl hune
        | cons u0 us => exact ⟨u0, us, rfl⟩
      refine ⟨⟨ref, digitsToNat (d0 :: ds'), some (digitsToNat (u0 :: us))⟩, ?_, ?_⟩
      · rw [parse_regions_singleton]
        have h := parseRegion_colon ref [d0 :: ds'] (u0 :: us) hrefne hword hgs1 hud
        simp only [renderGroups, List.map_cons, List.map_nil, List.flatten_cons,
          List.flatten_nil, List.append_nil, List.nil_append, List.append_assoc,
          List.singleton_append, List.cons_append, List.isEmpty_cons,
          Bool.false_eq_true, if_false] at h
        simp only [List.cons_append]
        rw [h]
      · rw [parse_regions_singleton,
          parse_serializeRegion ref (digitsToNat (d0 :: ds'))
            (some (digitsToNat (u0 :: us))) hrefne hword]

/-- C7 witness: the grammar string `Ecoli:1000-2000` round-trips. -/
theorem c7_roundtrip_witness :
    specGrammarValid (String.toList "Ecoli:1000-2000") = true ∧
    ∃ r : Region, parse_regions none [String.toList "Ecoli:1000-2000"] = .ok [r] ∧
      parse_regions none [serializeRegion r] = .ok [r] :=
  ⟨rfl, c7_roundtrip (String.toList "Ecoli:1000-2000") rfl⟩

/-! ### Read-selection lemmas -/

theorem argsortAsc_perm (lengths : List Nat) :
    (argsortAsc lengths).Perm (List.range lengths.length) :=
  List.perm_insertionSort _ _

theorem argsortAsc_mem (lengths : List Nat) (i : Nat) :
    i ∈ argsortAsc lengths ↔ i < lengths.length := by
  rw [argsortAsc, List.mem_insertionSort, List.mem_range]

theorem argsortAsc_length (lengths : List Nat) :
    (argsortAsc lengths).length = lengths.length := by
  rw [argsortAsc, List.length_insertionSort, List.length_range]

theorem argsortAsc_sorted (lengths : List Nat) :
    List.Pairwise (lenLE lengths) (argsortAsc lengths) := by
  haveI : IsTotal Nat (lenLE lengths) := ⟨fun _ _ => Nat.le_total _ _⟩
  haveI : IsTrans Nat (lenLE lengths) := ⟨fun _ _ _ => Nat.le_trans⟩
  exact List.sorted_insertionSort _ _

theorem selectIdx_subset (lengths : List Nat) (mode : SelectMode) (sel : List Nat)
    (h : selectIdx lengths mode = .ok sel) (i : Nat) (hi : i ∈ sel) :
    i < lengths.length := by
  cases mode with
  | bases b =>
    simp only [selectIdx, Except.ok.injEq] at h
    subst h
    have hmem := List.take_subset _ _ hi
    rw [List.mem_reverse] at hmem
    exact (argsortAsc_mem lengths i).mp hmem
  | longest pct =>
    simp only [selectIdx, percentSelect] at h
    split at h
    · simp only [Except.ok.injEq] at h
      subst h
      have hmem : i ∈ argsortAsc lengths := by
        simp only [pySliceFrom] at hi
        split at hi
        · exact List.drop_subset _ _ hi
        · exact List.drop_subset _ _ hi
      exact (argsortAsc_mem lengths i).mp hmem
    · cases h

theorem othersIdx_mem (n : Nat) (sel : List Nat) (i : Nat) :
    i ∈ othersIdx n sel ↔ i < n ∧ i ∉ sel := by
  simp [othersIdx, List.mem_filter, List.mem_range]

/-- C8: whichever selection mode succeeds, the selected index list stays within
the input, and together with the `--others` list it partitions the input
index set: their union covers every index and they are disjoint. -/
theorem c8_partition (lengths : List Nat) (mode : SelectMode) (sel : List Nat)
    (h : selectIdx lengths mode = .ok sel) :
    (∀ i ∈ sel, i < lengths.length) ∧
    (∀ i, i < lengths.length → i ∈ sel ∨ i ∈ othersIdx lengths.length sel) ∧
    (∀ i, ¬(i ∈ sel ∧ i ∈ othersIdx lengths.length sel)) := by
  refine ⟨fun i hi => selectIdx_subset lengths mode sel h i hi, ?_, ?_⟩
  · intro i hn
    by_cases hm : i ∈ sel
    · exact Or.inl hm
    · exact Or.inr ((othersIdx_mem _ _ _).mpr ⟨hn, hm⟩)
  · rintro i ⟨h1, h2⟩
    exact ((othersIdx_mem _ _ _).mp h2).2 h1

/-- C8 witness: budget mode on `[(a,100),(b,50),(c,10)]` with budget 120
selects indices `[0, 1]`, and the partition invariant holds there. -/
theorem c8_partition_witness :
    selectIdx [100, 50, 10] (SelectMode.bases 120) = .ok [0, 1] ∧
    ((∀ i ∈ [0, 1], i < 3) ∧
     (∀ i, i < 3 → i ∈ [0, 1] ∨ i ∈ othersIdx 3 [0, 1]) ∧
     (∀ i, ¬(i ∈ [0, 1] ∧ i ∈ othersIdx 3 [0, 1]))) :=
  ⟨rfl, c8_partition [100, 50, 10] (SelectMode.bases 120) [0, 1] rfl⟩

/-- C1 (code bug): on the spec's own example `[(a,100),(b,50),(c,10)]` with
budget 120, the code selects indices 0 and 1 (`a` and `b`, 150 bases),
not `{a}` alone: the loop accumulates lengths over `np.argsort(lengths)`
(ascending order) while selecting from the descending order, so the two
smallest lengths (10, 50) fit the budget and the two largest reads are
returned, exceeding the documented maximum of 120 bases. -/
theorem c1_budget_divergence :
    budgetSelect [100, 50, 10] 120 = [0, 1] ∧
    othersIdx 3 (budgetSelect [100, 50, 10] 120) = [2] ∧
    100 + 50 > 120 := ⟨rfl, rfl, by decide⟩

/-- C2 counterexample: the exact-count claim fails twice over.  With records
`[(a,100),(b,50),(c,10)]` and pct = 10, `floor(3 * 10 / 100) = 0` but the
code selects all three reads (`[-0:]` is the whole array), not zero.  And
the double-precision count itself can fall below the floor: at total = 50,
pct = 58, Python computes `int(50 * 0.58) = 28` while
`floor(50 * 58 / 100) = 29`. -/
theorem c2_counterexample :
    Int.tdiv ((3 : Int) * 10) 100 = 0 ∧
    floatMaxReads 3 10 = 0 ∧
    percentSelectF [100, 50, 10] 10 = .ok [2, 1, 0] ∧
    floatMaxReads 50 58 = 28 ∧
    Int.tdiv ((50 : Int) * 58) 100 = 29 :=
  ⟨rfl, by decide, rfl, by decide, rfl⟩

/-- C2 (amended): in percentage mode the program selects exactly
`max_reads = int(total * (pct / 100))` ids — the count as computed in
double precision, which can fall one short of `floor(total * pct / 100)` —
whenever that count lies between 1 and the number of reads (as it does for
every practical collection size with pct in [0, 100]); and every selected
read is at least as long as every unselected read (length ties may cross
the boundary). -/
theorem c2_percentage_amended (lengths : List Nat) (pct : Int)
    (h1 : 1 ≤ floatMaxReads lengths.length pct)
    (hn : floatMaxReads lengths.length pct ≤ (lengths.length : Int)) :
    ∃ sel, percentSelectF lengths pct = .ok sel ∧
      sel.length = (floatMaxReads lengths.length pct).toNat ∧
      ∀ i ∈ sel, ∀ j, j < lengths.length → j ∉ sel →
        lengths.getD j 0 ≤ lengths.getD i 0 := by
  have hcond : -((lengths.length : Int)) ≤ -(floatMaxReads lengths.length pct) ∧
      -(floatMaxReads lengths.length pct) < (lengths.length : Int) := by
    omega
  simp only [percentSelectF]
  rw [if_pos hcond]
  refine ⟨_, rfl, ?_, ?_⟩
  · simp only [pySliceFrom]
    rw [if_neg (by omega)]
    rw [List.length_drop, argsortAsc_length]
    have := argsortAsc_length lengths
    omega
  · intro i hi j hjn hjsel
    simp only [pySliceFrom] at hi hjsel
    rw [if_neg (by omega)] at hi hjsel
    have hjmem : j ∈ argsortAsc lengths := (argsortAsc_mem lengths j).mpr hjn
    rw [← List.take_append_drop
      (((argsortAsc lengths).length : Int) +
        -(floatMaxReads lengths.length pct)).toNat
      (argsortAsc lengths), List.mem_append] at hjmem
    have hjtake : j ∈ (argsortAsc lengths).take
        (((argsortAsc lengths).length : Int) +
          -(floatMaxReads lengths.length pct)).toNat := by
      rcases hjmem with hj | hj
      · exact hj
      · exact absurd hj hjsel
    have hpair := argsortAsc_sorted lengths
    rw [← List.take_append_drop
      (((argsortAsc lengths).length : Int) +
        -(floatMaxReads lengths.length pct)).toNat
      (argsortAsc lengths), List.pairwise_append] at hpair
    exact hpair.2.2 j hjtake i hi

/-- C2 witness: the spec's percentage scenario, pct = 34 on three reads,
where the double-precision count `int(3 * 0.34) = 1`: exactly one read is
selected, the longest. -/
theorem c2_percentage_amended_witness :
    1 ≤ floatMaxReads 3 34 ∧ floatMaxReads 3 34 ≤ (3 : Int) ∧
    (∃ sel, percentSelectF [100, 50, 10] 34 = .ok sel ∧
      sel.length = (floatMaxReads (100 :: 50 :: 10 :: []).length 34).toNat ∧
      ∀ i ∈ sel, ∀ j, j < (100 :: 50 :: 10 :: []).length → j ∉ sel →
        [100, 50, 10].getD j 0 ≤ [100, 50, 10].getD i 0) :=
  ⟨by decide, by decide,
    c2_percentage_amended [100, 50, 10] 34 (by decide) (by decide)⟩

/-- C9: in percentage mode, when the truncated count is 0 on a non-empty
collection, the code selects all reads (the `[-0:]` slice is the whole
array), not none. -/
theorem c9_zero_floor_selects_all (lengths : List Nat) (pct : Int)
    (hne : 0 < lengths.length)
    (h0 : Int.tdiv ((lengths.length : Int) * pct) 100 = 0) :
    ∃ sel, percentSelect lengths pct = .ok sel ∧
      sel.length = lengths.length ∧ ∀ i, i < lengths.length → i ∈ sel := by
  simp only [percentSelect, h0, neg_zero]
  rw [if_pos (by constructor <;> omega)]
  refine ⟨_, rfl, ?_, ?_⟩
  · simp only [pySliceFrom]
    rw [if_pos (by omega)]
    simp [argsortAsc_length]
  · intro i hin
    simp only [pySliceFrom]
    rw [if_pos (by omega)]
    simp only [Int.toNat_zero, List.drop_zero]
    exact (argsortAsc_mem lengths i).mpr hin

/-- C9 witness: pct = 10 on three reads gives `max_reads = 0` and all three
reads are selected. -/
theorem c9_zero_floor_selects_all_witness :
    0 < (3 : Nat) ∧ Int.tdiv ((3 : Int) * 10) 100 = 0 ∧
    (∃ sel, percentSelect [100, 50, 10] 10 = .ok sel ∧
      sel.length = (100 :: 50 :: 10 :: []).length ∧
      ∀ i, i < (100 :: 50 :: 10 :: []).length → i ∈ sel) :=
  ⟨by decide, by decide,
    c9_zero_floor_selects_all [100, 50, 10] 10 (by decide) (by decide)⟩

/-- C5 counterexample: pct = −50 is outside [0, 100], yet with three reads the
code does not fail: `max_reads = trunc(3 * −0.5) = −1`, so `kth = 1` is a
valid argpartition argument and slice `[1:]` returns the top two reads. -/
theorem c5_counterexample :
    (-50 : Int) < 0 ∧ percentSelect [100, 50, 10] (-50) = .ok [1, 0] :=
  ⟨by decide, rfl⟩

/-- C5 (amended): percentage mode performs no range validation; it fails
exactly when the truncated count `trunc(total * pct / 100)` leaves the window
`[1 − total, total]` (the numpy `kth` bound check), so many out-of-range
percentages succeed. -/
theorem c5_range_amended (lengths : List Nat) (pct : Int) :
    (∃ sel, percentSelect lengths pct = .ok sel) ↔
      (1 - (lengths.length : Int) ≤ Int.tdiv ((lengths.length : Int) * pct) 100 ∧
       Int.tdiv ((lengths.length : Int) * pct) 100 ≤ (lengths.length : Int)) := by
  simp only [percentSelect]
  split
  · rename_i hcond
    exact ⟨fun _ => by omega, fun _ => ⟨_, rfl⟩⟩
  · rename_i hcond
    constructor
    · rintro ⟨sel, hsel⟩
      cases hsel
    · intro hb
      exact absurd (by omega : -((lengths.length : Int)) ≤
          -(Int.tdiv ((lengths.length : Int) * pct) 100) ∧
          -(Int.tdiv ((lengths.length : Int) * pct) 100) < (lengths.length : Int))
        hcond

/-- C4 counterexample: on the empty collection, percentage mode raises (numpy
`argpartition` rejects `kth = 0` for a size-0 array) instead of returning
zero selected reads. -/
theorem c4_counterexample :
    percentSelect [] 50 = .error "kth out of bounds" := rfl

/-- C4 (amended): on the empty collection, budget mode returns zero selected
indices and zero others without failing, but percentage mode always fails
with the argpartition bound error. -/
theorem c4_empty_amended (pct : Int) (b : Nat) :
    budgetSelect [] b = [] ∧ othersIdx 0 (budgetSelect [] b) = [] ∧
    percentSelect [] pct = .error "kth out of bounds" := by
  refine ⟨rfl, rfl, ?_⟩
  simp [percentSelect]

end Pomoxis
